import Mathlib

/-!
Shallow embedding of the temporal segment pipeline of the
Highlight-Generator-AI repository (src/highlights_ai).  Python floats are
modelled as exact rationals and Python lists as Lean lists; a Python
function that can raise an uncaught exception is modelled with Except.
Each definition mirrors the corresponding Python function, with the source
location named in its doc comment.
-/

/-- One analyzer-reported highlight in chunk-local time
(gemini_analysis.py, dataclass HighlightMoment). -/
structure HighlightMoment where
  start_sec : ℚ
  end_sec : ℚ
  reason : String
deriving DecidableEq, Repr

/-- A highlight segment in original-video time
(timestamps.py, dataclass GlobalSegment). -/
structure GlobalSegment where
  start_sec : ℚ
  end_sec : ℚ
  reason : String
deriving DecidableEq, Repr

/-- Timestamp mapping for one chunk (chunking.py, dataclass ChunkMapping). -/
structure ChunkMapping where
  original_video_start_time : ℚ
  original_video_end_time : ℚ
  chunk_start_time : ℚ
  chunk_end_time : ℚ
  chunk_index : ℕ
  chunk_file_path : String
deriving DecidableEq, Repr

/-- Loop of build_chunks_with_overlap (chunking.py lines 52-60), with an
explicit fuel argument bounding the number of loop iterations.  The Python
loop runs `while start < duration_sec`, appends
`(start, min (start + chunk_duration_sec) duration_sec)`, breaks once the
appended end has reached `duration_sec`, and otherwise advances `start` by
`step`. -/
def buildChunksLoop (duration_sec chunk_duration_sec step : ℚ) : ℕ → ℚ → List (ℚ × ℚ)
  | 0, _ => []
  | fuel + 1, start =>
    if start < duration_sec then
      if duration_sec ≤ min (start + chunk_duration_sec) duration_sec then
        [(start, min (start + chunk_duration_sec) duration_sec)]
      else
        (start, min (start + chunk_duration_sec) duration_sec) ::
          buildChunksLoop duration_sec chunk_duration_sec step fuel (start + step)
    else []

/-- Fuel sufficient for `buildChunksLoop` starting at 0: when `0 < step`,
the loop advances by `step` each iteration, so `⌈duration_sec / step⌉ + 1`
iterations always reach the end of the video. -/
def chunksFuel (duration_sec step : ℚ) : ℕ := (⌈duration_sec / step⌉).toNat + 1

/-- build_chunks_with_overlap (chunking.py lines 40-60): raises ValueError
when `overlap_sec >= chunk_duration_sec`, otherwise tiles `[0, duration_sec)`
into windows of length `chunk_duration_sec` advancing by
`chunk_duration_sec - overlap_sec`. -/
def build_chunks_with_overlap (duration_sec chunk_duration_sec overlap_sec : ℚ) :
    Except String (List (ℚ × ℚ)) :=
  if chunk_duration_sec ≤ overlap_sec then
    Except.error "overlap_sec must be smaller than chunk_duration_sec"
  else
    Except.ok (buildChunksLoop duration_sec chunk_duration_sec
      (chunk_duration_sec - overlap_sec)
      (chunksFuel duration_sec (chunk_duration_sec - overlap_sec)) 0)

/-- ASCII whitespace, as stripped by Python's str.strip and matched by the
regex class \s. -/
def pyIsSpace (c : Char) : Bool :=
  c = ' ' || c = '\t' || c = '\n' || c = '\r' || c = '\x0b' || c = '\x0c'

/-- Python str.strip(): drop leading and trailing whitespace. -/
def pyStrip (cs : List Char) : List Char :=
  ((cs.dropWhile pyIsSpace).reverse.dropWhile pyIsSpace).reverse

/-- Characters matched by the regex class [\d.]. -/
def isDigitDot (c : Char) : Bool := c.isDigit || c = '.'

/-- Does pat start the string cs? -/
def prefixMatches : List Char → List Char → Bool
  | [], _ => true
  | _ :: _, [] => false
  | p :: ps, c :: cs => p = c && prefixMatches ps cs

/-- Does pat occur contiguously inside the string? (Python's `in` operator.) -/
def containsSub (pat : List Char) : List Char → Bool
  | [] => pat.isEmpty
  | c :: cs => prefixMatches pat (c :: cs) || containsSub pat cs

/-- Test for the no-highlights sentinel: Python's
`"NONE" in text.upper()` (gemini_analysis.py line 47). -/
def containsNONE (text : List Char) : Bool :=
  containsSub "NONE".data (text.map Char.toUpper)

/-- Case-insensitive match of the literal `MOMENT:` at the start of the line:
the anchored head of the moment regex, compiled with re.I. -/
def matchDesignator : List Char → Option (List Char)
  | m :: o :: m2 :: e :: n :: t :: colon :: rest =>
    if m.toUpper = 'M' && o.toUpper = 'O' && m2.toUpper = 'M' && e.toUpper = 'E' &&
        n.toUpper = 'N' && t.toUpper = 'T' && colon = ':' then some rest else none
  | _ => none

/-- Model of `re.match(r"MOMENT:\s*([\d.]+)\s+([\d.]+)\s+(.+)", line, re.I)`,
returning the three capture groups.  The classes `[\d.]` and `\s` are
disjoint, so each greedy quantifier takes the maximal run of its class; the
only backtracking the pattern can perform is to hand the final whitespace
character of the third run to `(.+)` when nothing follows that run. -/
def matchMoment (cs : List Char) : Option (List Char × List Char × List Char) :=
  match matchDesignator cs with
  | none => none
  | some r0 =>
    let r1 := r0.dropWhile pyIsSpace
    let tok1 := r1.takeWhile isDigitDot
    let r2 := r1.dropWhile isDigitDot
    let sp1 := r2.takeWhile pyIsSpace
    let r3 := r2.dropWhile pyIsSpace
    let tok2 := r3.takeWhile isDigitDot
    let r4 := r3.dropWhile isDigitDot
    let sp2 := r4.takeWhile pyIsSpace
    let r5 := r4.dropWhile pyIsSpace
    if tok1.isEmpty || sp1.isEmpty || tok2.isEmpty || sp2.isEmpty then none
    else if r5.isEmpty then
      if 2 ≤ sp2.length then some (tok1, tok2, sp2.drop (sp2.length - 1)) else none
    else some (tok1, tok2, r5)

/-- Numeric value of a run of decimal digits. -/
def digitsVal (cs : List Char) : ℕ :=
  cs.foldl (fun n c => 10 * n + (c.toNat - '0'.toNat)) 0

/-- Python float() applied to a token drawn from the regex class [\d.]+: it
succeeds exactly when the token has at least one digit and at most one dot,
and then denotes the usual decimal value; on any other such token (for
example "1.2.3" or ".") float() raises ValueError, modelled as none. -/
def pyFloatOfToken (tok : List Char) : Option ℚ :=
  if tok.count '.' ≤ 1 && tok.any Char.isDigit then
    some ((digitsVal (tok.takeWhile (fun c => c ≠ '.')) : ℚ) +
      (digitsVal ((tok.dropWhile (fun c => c ≠ '.')).drop 1) : ℚ) /
        ((10 : ℚ) ^ ((tok.dropWhile (fun c => c ≠ '.')).drop 1).length))
  else none

/-- The line loop of parse_moments (gemini_analysis.py lines 49-57), threading
the possibility that float() raises ValueError as Except.error. -/
def parseLines : List (List Char) → Except Unit (List HighlightMoment)
  | [] => Except.ok []
  | line :: rest =>
    match matchMoment (pyStrip line) with
    | none => parseLines rest
    | some (t1, t2, t3) =>
      match pyFloatOfToken t1, pyFloatOfToken t2 with
      | some s, some e =>
        match parseLines rest with
        | Except.error u => Except.error u
        | Except.ok ms =>
          if s < e ∧ 0 ≤ s then Except.ok (⟨s, e, String.mk (pyStrip t3)⟩ :: ms)
          else Except.ok ms
      | _, _ => Except.error ()

/-- parse_moments (gemini_analysis.py lines 44-58) on the characters of the
response text; Except.error models a ValueError escaping from float(). -/
def parseMomentsCore (text : List Char) : Except Unit (List HighlightMoment) :=
  if text.isEmpty || containsNONE text then Except.ok []
  else parseLines ((pyStrip text).splitOn '\n')

/-- parse_moments on a Lean string. -/
def parse_moments (text : String) : Except Unit (List HighlightMoment) :=
  parseMomentsCore text.data

/-- normalize_to_original_time (timestamps.py lines 18-39). -/
def normalize_to_original_time (mapping : ChunkMapping) :
    List HighlightMoment → List GlobalSegment
  | [] => []
  | m :: rest =>
    let local_start := max 0 (min m.start_sec mapping.chunk_end_time)
    let local_end := max local_start (min m.end_sec mapping.chunk_end_time)
    if local_end ≤ local_start then normalize_to_original_time mapping rest
    else
      ⟨mapping.original_video_start_time + local_start,
       mapping.original_video_start_time + local_end,
       m.reason⟩ :: normalize_to_original_time mapping rest

/-- The key Python's sorted() is given in merge_overlapping_or_adjacent:
lexicographic on (start_sec, end_sec). -/
def segLE (s t : GlobalSegment) : Prop :=
  s.start_sec < t.start_sec ∨ (s.start_sec = t.start_sec ∧ s.end_sec ≤ t.end_sec)

instance : DecidableRel segLE := fun s t => by
  unfold segLE; infer_instance

instance : IsTotal GlobalSegment segLE where
  total s t := by
    unfold segLE
    rcases lt_trichotomy s.start_sec t.start_sec with h | h | h
    · exact Or.inl (Or.inl h)
    · rcases le_total s.end_sec t.end_sec with h2 | h2
      · exact Or.inl (Or.inr ⟨h, h2⟩)
      · exact Or.inr (Or.inr ⟨h.symm, h2⟩)
    · exact Or.inr (Or.inl h)

instance : IsTrans GlobalSegment segLE where
  trans a b c hab hbc := by
    unfold segLE at *
    rcases hab with h1 | ⟨h1, h1e⟩ <;> rcases hbc with h2 | ⟨h2, h2e⟩
    · exact Or.inl (h1.trans h2)
    · exact Or.inl (h2 ▸ h1)
    · exact Or.inl (h1 ▸ h2)
    · exact Or.inr ⟨h1.trans h2, h1e.trans h2e⟩

/-- Python's `sorted(segments, key=lambda s: (s.start_sec, s.end_sec))`
(timestamps.py line 52): a stable sort on the lexicographic key, modelled
by the equally stable insertion sort on the same key order. -/
def sortSegments (l : List GlobalSegment) : List GlobalSegment :=
  List.insertionSort segLE l

/-- The sweep of merge_overlapping_or_adjacent (timestamps.py lines 53-64):
`cur` is the trailing element of the Python `merged` list, extended in place
while following segments start within `gap_sec` of its end. -/
def mergeSweep (gap_sec : ℚ) : GlobalSegment → List GlobalSegment → List GlobalSegment
  | cur, [] => [cur]
  | cur, s :: rest =>
    if s.start_sec ≤ cur.end_sec + gap_sec then
      mergeSweep gap_sec ⟨cur.start_sec, max cur.end_sec s.end_sec, cur.reason⟩ rest
    else cur :: mergeSweep gap_sec s rest

/-- merge_overlapping_or_adjacent (timestamps.py lines 42-65). -/
def merge_overlapping_or_adjacent (segments : List GlobalSegment) (gap_sec : ℚ) :
    List GlobalSegment :=
  match sortSegments segments with
  | [] => []
  | s :: rest => mergeSweep gap_sec s rest

/-- The loop of cap_total_duration with the running total as accumulator
(timestamps.py lines 76-93).  The Python loop breaks right after the branch
on `remaining`, so nothing beyond the first non-fitting segment survives. -/
def capLoop (max_duration_sec : ℚ) : ℚ → List GlobalSegment → List GlobalSegment
  | _, [] => []
  | total, s :: rest =>
    if total + (s.end_sec - s.start_sec) ≤ max_duration_sec then
      s :: capLoop max_duration_sec (total + (s.end_sec - s.start_sec)) rest
    else if 1 < max_duration_sec - total then
      [⟨s.start_sec, s.start_sec + (max_duration_sec - total), s.reason⟩]
    else []

/-- cap_total_duration (timestamps.py lines 68-94). -/
def cap_total_duration (segments : List GlobalSegment) (max_duration_sec : ℚ) :
    List GlobalSegment :=
  capLoop max_duration_sec 0 segments

/-- Total duration of a list of segments, as summed by pipeline.py line 94. -/
def segTotalDur (segments : List GlobalSegment) : ℚ :=
  (segments.map (fun s => s.end_sec - s.start_sec)).sum

/-- Outcome of one chunk-analyzer call (analyze_chunk_with_gemini,
gemini_analysis.py lines 91-125, an external remote interaction): either a
response text, or an uncaught analyzer exception, or the TimeoutError raised
by _wait_for_file_active when the poll loop exceeds its deadline. -/
inductive AnalyzerResult where
  | text (s : String)
  | analyzerError
  | timeout
deriving DecidableEq, Repr

/-- Exceptions that can escape the per-chunk analysis. -/
inductive PipelineError where
  | analyzer
  | timeout
  | valueError
deriving DecidableEq, Repr

/-- get_chunk_highlights (gemini_analysis.py lines 128-136) with the remote
analyzer call abstracted as a function: an analyzer exception or timeout, or
a ValueError escaping parse_moments, propagates as Except.error. -/
def get_chunk_highlights (analyze : ChunkMapping → AnalyzerResult) (m : ChunkMapping) :
    Except PipelineError (List HighlightMoment) :=
  match analyze m with
  | AnalyzerResult.text s =>
    match parse_moments s with
    | Except.ok ms => Except.ok ms
    | Except.error _ => Except.error PipelineError.valueError
  | AnalyzerResult.analyzerError => Except.error PipelineError.analyzer
  | AnalyzerResult.timeout => Except.error PipelineError.timeout

/-- The per-chunk analysis loop of run_pipeline (pipeline.py lines 70-83):
each chunk's moments are normalized and appended to the global segment list.
The loop body contains no try/except, so the first exception raised while
analyzing a chunk propagates and aborts the whole run. -/
def analysisLoop (analyze : ChunkMapping → AnalyzerResult) :
    List ChunkMapping → Except PipelineError (List GlobalSegment)
  | [] => Except.ok []
  | m :: rest =>
    match get_chunk_highlights analyze m with
    | Except.error e => Except.error e
    | Except.ok moments =>
      match analysisLoop analyze rest with
      | Except.error e => Except.error e
      | Except.ok segs => Except.ok (normalize_to_original_time m moments ++ segs)

/-! Theorems.  Claim theorems are named below with one helper-lemma layer
above them; witnesses instantiate each hypothesis at concrete inputs. -/

theorem prefixMatches_append (pat post : List Char) :
    prefixMatches pat (pat ++ post) = true := by
  induction pat with
  | nil => rfl
  | cons p ps ih => simp [prefixMatches, ih]

theorem containsSub_nil_pat (l : List Char) : containsSub [] l = true := by
  cases l <;> simp [containsSub, prefixMatches]

theorem containsSub_append (pat pre post : List Char) :
    containsSub pat (pre ++ (pat ++ post)) = true := by
  induction pre with
  | nil =>
    cases pat with
    | nil => simpa using containsSub_nil_pat post
    | cons p ps =>
      simp only [List.nil_append, containsSub, Bool.or_eq_true]
      exact Or.inl (by simpa using prefixMatches_append (p :: ps) post)
  | cons c cs ih => simp [containsSub, ih]

/-- C7: for every response text that contains the no-highlights sentinel
case-insensitively, parse_moments returns the empty list — the sentinel
check short-circuits the whole parse before any line is examined, no matter
how many well-formed MOMENT lines the text contains. -/
theorem parse_moments_sentinel (text : String) (h : containsNONE text.data = true) :
    parse_moments text = Except.ok [] := by
  unfold parse_moments parseMomentsCore
  simp [h]

theorem parse_moments_sentinel_witness :
    containsNONE "MOMENT: 1.0 3.5 goal\nNONE\n".data = true ∧
      parse_moments "MOMENT: 1.0 3.5 goal\nNONE\n" = Except.ok [] :=
  ⟨by decide, parse_moments_sentinel "MOMENT: 1.0 3.5 goal\nNONE\n" (by decide)⟩

/-- C9: any occurrence of the four letters n-o-n-e, in any case, anywhere in
the response text makes parse_moments return the empty list — even inside an
unrelated word such as "nonexistent" in a moment's description — so such a
response contributes zero moments regardless of its valid MOMENT lines. -/
theorem parse_moments_none_anywhere (pre v post : String)
    (h : v.data.map Char.toUpper = "NONE".data) :
    parse_moments (pre ++ v ++ post) = Except.ok [] := by
  have hdata : (pre ++ v ++ post).data = pre.data ++ (v.data ++ post.data) := by
    simp [String.data_append]
  have hc : containsNONE (pre.data ++ (v.data ++ post.data)) = true := by
    unfold containsNONE
    rw [List.map_append, List.map_append, h]
    exact containsSub_append "NONE".data (pre.data.map Char.toUpper)
      (post.data.map Char.toUpper)
  unfold parse_moments parseMomentsCore
  rw [hdata, hc]
  simp

theorem parse_moments_none_anywhere_witness :
    ("none".data.map Char.toUpper = "NONE".data) ∧
      parse_moments ("MOMENT: 1.0 2.0 a " ++ "none" ++ "xistent event") = Except.ok [] :=
  ⟨by decide, parse_moments_none_anywhere "MOMENT: 1.0 2.0 a " "none" "xistent event" (by decide)⟩

/-- C4 is violated by the code: parse_moments is not total.  The moment
regex accepts "1.2.3" (the class [\d.]+ allows several dots) as the first
number of an otherwise well-formed line, and Python's float("1.2.3") then
raises ValueError, which nothing in parse_moments catches, so the malformed
line crashes the whole parse instead of being silently skipped. -/
theorem parse_moments_crashes_on_multidot :
    parse_moments "MOMENT: 1.2.3 4 oops" = Except.error () := rfl

/-- First of two chunk mappings of a 52-second video tiled into 30-second
chunks with 8-second overlap, as build_chunk_mappings would produce. -/
def chunkA : ChunkMapping := ⟨0, 30, 0, 30, 0, "chunk_0000_00m00s_00m30s.mp4"⟩

/-- Second of the two chunk mappings. -/
def chunkB : ChunkMapping := ⟨22, 52, 0, 30, 1, "chunk_0001_00m22s_00m52s.mp4"⟩

/-- An analyzer that raises for the first chunk and answers a single
well-formed moment line for every other chunk. -/
def failingAnalyzer (m : ChunkMapping) : AnalyzerResult :=
  if m.chunk_index = 0 then AnalyzerResult.analyzerError
  else AnalyzerResult.text "MOMENT: 1 2 goal"

/-- C5 fails on the code: run_pipeline's per-chunk analysis loop has no
try/except, so with an analyzer that fails on the first of two chunks and
returns a well-formed moment line for the second, the loop aborts with the
analyzer's error instead of completing with the first chunk contributing
zero moments. -/
theorem analysisLoop_aborts_on_one_failure :
    analysisLoop failingAnalyzer [chunkA, chunkB] = Except.error PipelineError.analyzer ∧
      ∀ segs, analysisLoop failingAnalyzer [chunkA, chunkB] ≠ Except.ok segs := by
  refine ⟨rfl, fun segs h => ?_⟩
  rw [show analysisLoop failingAnalyzer [chunkA, chunkB] =
    Except.error PipelineError.analyzer from rfl] at h
  exact absurd h (by simp)

/-- C5 amended: when get_chunk_highlights raises for any chunk in the list
(analyzer error, timeout, or a ValueError from parsing its text), the
analysis loop of run_pipeline propagates the exception and the whole run
aborts with an error; there is no configuration that degrades the failing
chunk to zero moments. -/
theorem analysisLoop_error_propagates (analyze : ChunkMapping → AnalyzerResult)
    (mappings : List ChunkMapping)
    (h : ∃ m ∈ mappings, ∃ e, get_chunk_highlights analyze m = Except.error e) :
    ∃ e, analysisLoop analyze mappings = Except.error e := by
  induction mappings with
  | nil => simp at h
  | cons m rest ih =>
    obtain ⟨m0, hm0, e0, he0⟩ := h
    rcases List.mem_cons.mp hm0 with rfl | hmem
    · exact ⟨e0, by simp [analysisLoop, he0]⟩
    · cases hga : get_chunk_highlights analyze m with
      | error e1 => exact ⟨e1, by simp [analysisLoop, hga]⟩
      | ok moments =>
        obtain ⟨e1, he1⟩ := ih ⟨m0, hmem, e0, he0⟩
        exact ⟨e1, by simp [analysisLoop, hga, he1]⟩

theorem analysisLoop_error_propagates_witness :
    (∃ m ∈ [chunkA, chunkB], ∃ e, get_chunk_highlights failingAnalyzer m = Except.error e) ∧
      ∃ e, analysisLoop failingAnalyzer [chunkA, chunkB] = Except.error e :=
  ⟨⟨chunkA, List.mem_cons_self chunkA [chunkB], PipelineError.analyzer, rfl⟩,
    analysisLoop_error_propagates failingAnalyzer [chunkA, chunkB]
      ⟨chunkA, List.mem_cons_self chunkA [chunkB], PipelineError.analyzer, rfl⟩⟩

/-- The Timestamp Normalizer as worded by the spec (section 4.3): clamp both
endpoints of each moment into [0, localDuration], drop the moment exactly
when the clamped end does not exceed the clamped start, and otherwise emit
the segment offset by the window's source start.  Stated separately so the
code's normalizer (which clamps the end into [clampedStart, localDuration])
can be proved extensionally equal to it. -/
def specNormalize (mapping : ChunkMapping) (moments : List HighlightMoment) :
    List GlobalSegment :=
  moments.filterMap fun m =>
    let cs := max 0 (min m.start_sec mapping.chunk_end_time)
    let ce := max 0 (min m.end_sec mapping.chunk_end_time)
    if ce ≤ cs then none
    else some ⟨mapping.original_video_start_time + cs,
      mapping.original_video_start_time + ce, m.reason⟩

theorem normalize_eq_specNormalize (mapping : ChunkMapping)
    (moments : List HighlightMoment) :
    normalize_to_original_time mapping moments = specNormalize mapping moments := by
  induction moments with
  | nil => rfl
  | cons m rest ih =>
    unfold normalize_to_original_time specNormalize
    simp only [List.filterMap_cons]
    have hls : (0 : ℚ) ≤ max 0 (min m.start_sec mapping.chunk_end_time) :=
      le_max_left _ _
    by_cases hb : min m.end_sec mapping.chunk_end_time ≤
        max 0 (min m.start_sec mapping.chunk_end_time)
    · rw [if_pos (max_le (le_refl _) hb), if_pos (max_le hls hb)]
      exact ih.trans (by rw [specNormalize])
    · have hlt := not_le.mp hb
      rw [if_neg (fun hle => hb ((le_max_right _ _).trans hle)),
        if_neg (fun hle => hb ((le_max_right 0 _).trans hle))]
      rw [max_eq_right hlt.le, max_eq_right (hls.trans hlt.le)]
      exact congrArg _ (ih.trans (by rw [specNormalize]))

theorem normalize_mem_bounds (mapping : ChunkMapping)
    (moments : List HighlightMoment) :
    ∀ seg ∈ normalize_to_original_time mapping moments,
      mapping.original_video_start_time ≤ seg.start_sec ∧
        seg.end_sec ≤ mapping.original_video_start_time + mapping.chunk_end_time ∧
        seg.start_sec < seg.end_sec := by
  induction moments with
  | nil => intro seg hseg; simp [normalize_to_original_time] at hseg
  | cons m rest ih =>
    intro seg hseg
    unfold normalize_to_original_time at hseg
    have hls : (0 : ℚ) ≤ max 0 (min m.start_sec mapping.chunk_end_time) :=
      le_max_left _ _
    by_cases hb : min m.end_sec mapping.chunk_end_time ≤
        max 0 (min m.start_sec mapping.chunk_end_time)
    · rw [if_pos (max_le (le_refl _) hb)] at hseg
      exact ih seg hseg
    · have hlt := not_le.mp hb
      rw [if_neg (fun hle => hb ((le_max_right _ _).trans hle))] at hseg
      rcases List.mem_cons.mp hseg with rfl | hmem
      · refine ⟨le_add_of_nonneg_right hls, ?_, ?_⟩
        · rw [max_eq_right hlt.le]
          exact add_le_add_left (min_le_right _ _) _
        · rw [max_eq_right hlt.le]
          exact add_lt_add_left hlt _
      · exact ih seg hmem

/-- C6: the Timestamp Normalizer behaves exactly as specified: it equals the
spec's clamp-into-[0,localDuration]-then-drop-or-offset description, every
emitted segment lies within [sourceStart, sourceStart + localDuration] with
positive length, and a window with sourceStart 100 and localDuration 30
sends the moment (-5, 35) to the segment (100, 130). -/
theorem normalize_to_original_time_spec (mapping : ChunkMapping)
    (moments : List HighlightMoment) :
    normalize_to_original_time mapping moments = specNormalize mapping moments ∧
    (∀ seg ∈ normalize_to_original_time mapping moments,
      mapping.original_video_start_time ≤ seg.start_sec ∧
        seg.end_sec ≤ mapping.original_video_start_time + mapping.chunk_end_time ∧
        seg.start_sec < seg.end_sec) ∧
    normalize_to_original_time ⟨100, 130, 0, 30, 0, ""⟩ [⟨-5, 35, "x"⟩] =
      [⟨100, 130, "x"⟩] := by
  refine ⟨normalize_eq_specNormalize mapping moments,
    normalize_mem_bounds mapping moments, ?_⟩
  norm_num [normalize_to_original_time, min_def, max_def]

theorem normalize_to_original_time_spec_witness :
    normalize_to_original_time ⟨100, 130, 0, 30, 0, ""⟩ [⟨-5, 35, "x"⟩] =
        specNormalize ⟨100, 130, 0, 30, 0, ""⟩ [⟨-5, 35, "x"⟩] ∧
      (∀ seg ∈ normalize_to_original_time ⟨100, 130, 0, 30, 0, ""⟩ [⟨-5, 35, "x"⟩],
        (100 : ℚ) ≤ seg.start_sec ∧ seg.end_sec ≤ (100 : ℚ) + 30 ∧
          seg.start_sec < seg.end_sec) ∧
      normalize_to_original_time ⟨100, 130, 0, 30, 0, ""⟩ [⟨-5, 35, "x"⟩] =
        [⟨100, 130, "x"⟩] :=
  normalize_to_original_time_spec ⟨100, 130, 0, 30, 0, ""⟩ [⟨-5, 35, "x"⟩]

theorem segTotalDur_nil : segTotalDur [] = 0 := rfl

theorem segTotalDur_cons (s : GlobalSegment) (l : List GlobalSegment) :
    segTotalDur (s :: l) = (s.end_sec - s.start_sec) + segTotalDur l := by
  simp [segTotalDur]

theorem capLoop_total (maxd : ℚ) :
    ∀ (l : List GlobalSegment) (total : ℚ), total ≤ maxd →
      total + segTotalDur (capLoop maxd total l) ≤ maxd := by
  intro l
  induction l with
  | nil => intro total h; simpa [capLoop, segTotalDur] using h
  | cons s rest ih =>
    intro total h
    unfold capLoop
    by_cases h1 : total + (s.end_sec - s.start_sec) ≤ maxd
    · rw [if_pos h1, segTotalDur_cons]
      have := ih (total + (s.end_sec - s.start_sec)) h1
      linarith
    · rw [if_neg h1]
      by_cases h2 : 1 < maxd - total
      · rw [if_pos h2, segTotalDur_cons, segTotalDur_nil]
        simp only [GlobalSegment.mk.injEq]
        ring_nf
        linarith
      · rw [if_neg h2]
        simpa [segTotalDur] using h

/-- Greedy-prefix shape of the capper's output relative to a running total
already spent: either a prefix of the input is returned whole — because the
whole input fit, or because the first segment that did not fit left a
remaining budget of at most one second — or a prefix is followed by exactly
one truncated copy of the first non-fitting segment, keeping its start and
reason with its end shortened so its duration is exactly the remaining
budget, all later segments being dropped. -/
def capShape (l : List GlobalSegment) (maxd total : ℚ) (out : List GlobalSegment) : Prop :=
  ∃ k, (out = l.take k ∧
      (l.take k = l ∨ ∃ s rest', l.drop k = s :: rest' ∧
        ¬ total + segTotalDur (l.take k) + (s.end_sec - s.start_sec) ≤ maxd ∧
        ¬ 1 < maxd - (total + segTotalDur (l.take k)))) ∨
    (∃ s rest', l.drop k = s :: rest' ∧
      out = l.take k ++
        [⟨s.start_sec, s.start_sec + (maxd - (total + segTotalDur (l.take k))), s.reason⟩] ∧
      ¬ total + segTotalDur (l.take k) + (s.end_sec - s.start_sec) ≤ maxd ∧
      1 < maxd - (total + segTotalDur (l.take k)))

theorem capLoop_shape (maxd : ℚ) :
    ∀ (l : List GlobalSegment) (total : ℚ), capShape l maxd total (capLoop maxd total l) := by
  intro l
  induction l with
  | nil => intro total; exact ⟨0, Or.inl ⟨rfl, Or.inl rfl⟩⟩
  | cons s rest ih =>
    intro total
    unfold capLoop
    by_cases h1 : total + (s.end_sec - s.start_sec) ≤ maxd
    · rw [if_pos h1]
      obtain ⟨k, hk⟩ := ih (total + (s.end_sec - s.start_sec))
      have htot : total + segTotalDur ((s :: rest).take (k + 1)) =
          total + (s.end_sec - s.start_sec) + segTotalDur (rest.take k) := by
        rw [List.take_succ_cons, segTotalDur_cons]; ring
      refine ⟨k + 1, ?_⟩
      rcases hk with ⟨hout, hside⟩ | ⟨t, r', hdrop, hout, hc1, hc2⟩
      · refine Or.inl ⟨by rw [List.take_succ_cons, hout], ?_⟩
        rcases hside with heq | ⟨t, r', hdrop, hc1, hc2⟩
        · exact Or.inl (by rw [List.take_succ_cons, heq])
        · refine Or.inr ⟨t, r', by rwa [List.drop_succ_cons], ?_, ?_⟩
          · rw [htot]; exact hc1
          · rw [htot]; exact hc2
      · refine Or.inr ⟨t, r', by rwa [List.drop_succ_cons], ?_, ?_, ?_⟩
        · rw [htot, List.take_succ_cons, hout]; simp
        · rw [htot]; exact hc1
        · rw [htot]; exact hc2
    · rw [if_neg h1]
      by_cases h2 : 1 < maxd - total
      · rw [if_pos h2]
        refine ⟨0, Or.inr ⟨s, rest, rfl, ?_, ?_, ?_⟩⟩
        · simp [segTotalDur_nil]
        · simpa [segTotalDur_nil] using h1
        · simpa [segTotalDur_nil] using h2
      · rw [if_neg h2]
        exact ⟨0, Or.inl ⟨by simp, Or.inr ⟨s, rest, rfl,
          by simpa [segTotalDur_nil] using h1, by simpa [segTotalDur_nil] using h2⟩⟩⟩

/-- C3 as stated is false for a negative budget: with input [(0,10)] and
maxTotal = -1 the capper returns the empty list, whose total duration 0 is
not at most -1. -/
theorem cap_total_duration_budget_cex :
    cap_total_duration [⟨0, 10, "a"⟩] (-1) = [] ∧
      ¬ segTotalDur (cap_total_duration [⟨0, 10, "a"⟩] (-1)) ≤ (-1 : ℚ) := by
  have h : cap_total_duration [⟨0, 10, "a"⟩] (-1) = [] := by
    norm_num [cap_total_duration, capLoop]
  exact ⟨h, by rw [h]; norm_num [segTotalDur]⟩

/-- C3 amended (the claim as frozen also asserts the bound for negative
budgets, where it fails): for every segment list and every maxTotal ≥ 0 the
capper's output has total duration at most maxTotal and is a greedy prefix
of the input — whole segments while they fit, then at most one truncated
copy of the first non-fitting segment (same start and reason, end shortened
to start + remaining) included exactly when the remaining budget exceeds
1.0 second, with all later segments dropped — and on [(0,10),(10,200)] with
maxTotal = 15 the output is [(0,10),(10,15)], of total duration exactly 15. -/
theorem cap_total_duration_spec (segments : List GlobalSegment) (maxd : ℚ)
    (h : 0 ≤ maxd) :
    segTotalDur (cap_total_duration segments maxd) ≤ maxd ∧
    capShape segments maxd 0 (cap_total_duration segments maxd) ∧
    cap_total_duration [⟨0, 10, "a"⟩, ⟨10, 200, "b"⟩] 15 =
      [⟨0, 10, "a"⟩, ⟨10, 15, "b"⟩] := by
  refine ⟨?_, capLoop_shape maxd segments 0, ?_⟩
  · have := capLoop_total maxd segments 0 h
    simpa [cap_total_duration] using this
  · norm_num [cap_total_duration, capLoop]

theorem cap_total_duration_spec_witness :
    (0 : ℚ) ≤ 15 ∧
      (segTotalDur (cap_total_duration [⟨0, 10, "a"⟩, ⟨10, 200, "b"⟩] 15) ≤ 15 ∧
        capShape [⟨0, 10, "a"⟩, ⟨10, 200, "b"⟩] 15 0
          (cap_total_duration [⟨0, 10, "a"⟩, ⟨10, 200, "b"⟩] 15) ∧
        cap_total_duration [⟨0, 10, "a"⟩, ⟨10, 200, "b"⟩] 15 =
          [⟨0, 10, "a"⟩, ⟨10, 15, "b"⟩]) :=
  ⟨by decide, cap_total_duration_spec [⟨0, 10, "a"⟩, ⟨10, 200, "b"⟩] 15 (by decide)⟩

/-- Two segments separated by strictly more than the gap tolerance. -/
def farApart (gap_sec : ℚ) (a b : GlobalSegment) : Prop :=
  a.end_sec + gap_sec < b.start_sec

theorem mergeSweep_head (gap_sec : ℚ) :
    ∀ (l : List GlobalSegment) (cur : GlobalSegment),
      ∃ e tail, mergeSweep gap_sec cur l = e :: tail ∧
        e.start_sec = cur.start_sec ∧ cur.end_sec ≤ e.end_sec := by
  intro l
  induction l with
  | nil => intro cur; exact ⟨cur, [], rfl, rfl, le_refl _⟩
  | cons s rest ih =>
    intro cur
    unfold mergeSweep
    by_cases h : s.start_sec ≤ cur.end_sec + gap_sec
    · rw [if_pos h]
      obtain ⟨e, tail, heq, hstart, hend⟩ :=
        ih ⟨cur.start_sec, max cur.end_sec s.end_sec, cur.reason⟩
      exact ⟨e, tail, heq, hstart, (le_max_left _ _).trans hend⟩
    · rw [if_neg h]
      exact ⟨cur, _, rfl, rfl, le_refl _⟩

theorem mergeSweep_chain (gap_sec : ℚ) :
    ∀ (l : List GlobalSegment) (cur : GlobalSegment),
      List.Chain' (farApart gap_sec) (mergeSweep gap_sec cur l) := by
  intro l
  induction l with
  | nil => intro cur; simp [mergeSweep]
  | cons s rest ih =>
    intro cur
    unfold mergeSweep
    by_cases h : s.start_sec ≤ cur.end_sec + gap_sec
    · rw [if_pos h]; exact ih _
    · rw [if_neg h]
      obtain ⟨e, tail, heq, hstart, _⟩ := mergeSweep_head gap_sec rest s
      rw [heq]
      refine List.chain'_cons.mpr ⟨?_, heq ▸ ih s⟩
      unfold farApart
      rw [hstart]
      linarith [not_le.mp h]

theorem mergeSweep_valid (gap_sec : ℚ) :
    ∀ (l : List GlobalSegment) (cur : GlobalSegment),
      cur.start_sec < cur.end_sec → (∀ s ∈ l, s.start_sec < s.end_sec) →
      ∀ e ∈ mergeSweep gap_sec cur l, e.start_sec < e.end_sec := by
  intro l
  induction l with
  | nil =>
    intro cur hcur _ e he
    simp [mergeSweep] at he
    rwa [he]
  | cons s rest ih =>
    intro cur hcur hl e he
    unfold mergeSweep at he
    by_cases h : s.start_sec ≤ cur.end_sec + gap_sec
    · rw [if_pos h] at he
      refine ih ⟨cur.start_sec, max cur.end_sec s.end_sec, cur.reason⟩ ?_ ?_ e he
      · exact lt_of_lt_of_le hcur (le_max_left _ _)
      · exact fun t ht => hl t (List.mem_cons_of_mem _ ht)
    · rw [if_neg h] at he
      rcases List.mem_cons.mp he with rfl | hmem
      · exact hcur
      · exact ih s (hl s (List.mem_cons_self _ _))
          (fun t ht => hl t (List.mem_cons_of_mem _ ht)) e hmem

theorem mergeSweep_start_from (gap_sec : ℚ) :
    ∀ (l : List GlobalSegment) (cur : GlobalSegment),
      ∀ e ∈ mergeSweep gap_sec cur l,
        ∃ x ∈ cur :: l, x.start_sec = e.start_sec ∧ x.end_sec ≤ e.end_sec := by
  intro l
  induction l with
  | nil =>
    intro cur e he
    simp [mergeSweep] at he
    exact ⟨cur, List.mem_cons_self _ _, by rw [he], by rw [he]⟩
  | cons s rest ih =>
    intro cur e he
    unfold mergeSweep at he
    by_cases h : s.start_sec ≤ cur.end_sec + gap_sec
    · rw [if_pos h] at he
      obtain ⟨x, hx, hxs, hxe⟩ := ih _ e he
      rcases List.mem_cons.mp hx with rfl | hxm
      · exact ⟨cur, List.mem_cons_self _ _, hxs, (le_max_left _ _).trans hxe⟩
      · exact ⟨x, List.mem_cons_of_mem _ (List.mem_cons_of_mem _ hxm), hxs, hxe⟩
    · rw [if_neg h] at he
      rcases List.mem_cons.mp he with rfl | hmem
      · exact ⟨e, List.mem_cons_self _ _, rfl, le_refl _⟩
      · obtain ⟨x, hx, hxs, hxe⟩ := ih s e hmem
        exact ⟨x, List.mem_cons_of_mem _ hx, hxs, hxe⟩

theorem mergeSweep_sorted (gap_sec : ℚ) :
    ∀ (l : List GlobalSegment) (cur : GlobalSegment),
      List.Sorted segLE (cur :: l) → List.Sorted segLE (mergeSweep gap_sec cur l) := by
  intro l
  induction l with
  | nil => intro cur _; simp [mergeSweep]
  | cons s rest ih =>
    intro cur hsort
    rw [List.sorted_cons] at hsort
    obtain ⟨hcur_all, hsr⟩ := hsort
    unfold mergeSweep
    by_cases h : s.start_sec ≤ cur.end_sec + gap_sec
    · rw [if_pos h]
      apply ih
      rw [List.sorted_cons]
      refine ⟨?_, (List.sorted_cons.mp hsr).2⟩
      intro y hy
      have hcy : segLE cur y := hcur_all y (List.mem_cons_of_mem _ hy)
      have hsy : segLE s y := (List.sorted_cons.mp hsr).1 y hy
      have hcs : segLE cur s := hcur_all s (List.mem_cons_self _ _)
      have hcs_start : cur.start_sec ≤ s.start_sec := by
        rcases hcs with h' | ⟨h', _⟩
        · exact h'.le
        · exact le_of_eq h'
      rcases hcy with h1 | ⟨h1, h2⟩
      · exact Or.inl h1
      · refine Or.inr ⟨h1, max_le h2 ?_⟩
        rcases hsy with h3 | ⟨h3, h4⟩
        · exfalso; linarith
        · exact h4
    · rw [if_neg h]
      rw [List.sorted_cons]
      refine ⟨?_, ih s hsr⟩
      intro e he
      obtain ⟨x, hx, hxs, hxe⟩ := mergeSweep_start_from gap_sec rest s e he
      have hcx : segLE cur x := hcur_all x hx
      rcases hcx with h1 | ⟨h1, h2⟩
      · exact Or.inl (hxs ▸ h1)
      · exact Or.inr ⟨hxs ▸ h1, h2.trans hxe⟩

theorem merge_sorted (segments : List GlobalSegment) (gap_sec : ℚ) :
    List.Sorted segLE (merge_overlapping_or_adjacent segments gap_sec) := by
  unfold merge_overlapping_or_adjacent
  have hs : List.Sorted segLE (sortSegments segments) :=
    List.sorted_insertionSort segLE segments
  cases h : sortSegments segments with
  | nil => simp
  | cons s rest =>
    rw [h] at hs
    exact mergeSweep_sorted gap_sec rest s hs

theorem merge_chain (segments : List GlobalSegment) (gap_sec : ℚ) :
    List.Chain' (farApart gap_sec) (merge_overlapping_or_adjacent segments gap_sec) := by
  unfold merge_overlapping_or_adjacent
  cases h : sortSegments segments with
  | nil => simp
  | cons s rest => exact mergeSweep_chain gap_sec rest s

theorem chain_far_all (gap_sec : ℚ) (hg : 0 ≤ gap_sec) :
    ∀ (l : List GlobalSegment) (a : GlobalSegment),
      List.Chain' (farApart gap_sec) (a :: l) →
      (∀ e ∈ a :: l, e.start_sec < e.end_sec) →
      ∀ b ∈ l, a.end_sec + gap_sec < b.start_sec := by
  intro l
  induction l with
  | nil => intro a _ _ b hb; simp at hb
  | cons c l' ih =>
    intro a hchain hval b hb
    have hac : farApart gap_sec a c := (List.chain'_cons.mp hchain).1
    rcases List.mem_cons.mp hb with rfl | hmem
    · exact hac
    · have hcb := ih c (List.chain'_cons.mp hchain).2
        (fun e he => hval e (List.mem_cons_of_mem _ he)) b hmem
      have hcv : c.start_sec < c.end_sec := hval c (List.mem_cons_of_mem _ (List.mem_cons_self _ _))
      unfold farApart at hac
      linarith

theorem chain_far_pairwise (gap_sec : ℚ) (hg : 0 ≤ gap_sec) :
    ∀ (l : List GlobalSegment), List.Chain' (farApart gap_sec) l →
      (∀ e ∈ l, e.start_sec < e.end_sec) →
      l.Pairwise (fun a b => a.start_sec < b.start_sec ∧ a.end_sec < b.start_sec ∧
        a.end_sec + gap_sec < b.start_sec) := by
  intro l
  induction l with
  | nil => intro _ _; simp
  | cons a l' ih =>
    intro hchain hval
    rw [List.pairwise_cons]
    refine ⟨?_, ih hchain.tail (fun e he => hval e (List.mem_cons_of_mem _ he))⟩
    intro b hb
    have h3 := chain_far_all gap_sec hg l' a hchain hval b hb
    have hav : a.start_sec < a.end_sec := hval a (List.mem_cons_self _ _)
    have hbv : b.start_sec < b.end_sec := hval b (List.mem_cons_of_mem _ hb)
    exact ⟨by linarith, by linarith, h3⟩

/-- C1: with every input segment having end > start and a nonnegative gap
tolerance, the merger's output is sorted strictly ascending by start, its
segments are pairwise non-overlapping, and every later segment starts
strictly more than the gap tolerance after every earlier one ends. -/
theorem merge_sorted_nonoverlapping_gapped (segments : List GlobalSegment) (gap_sec : ℚ)
    (hv : ∀ s ∈ segments, s.start_sec < s.end_sec) (hg : 0 ≤ gap_sec) :
    (merge_overlapping_or_adjacent segments gap_sec).Pairwise
      (fun a b => a.start_sec < b.start_sec ∧ a.end_sec < b.start_sec ∧
        a.end_sec + gap_sec < b.start_sec) := by
  have hval : ∀ e ∈ merge_overlapping_or_adjacent segments gap_sec,
      e.start_sec < e.end_sec := by
    unfold merge_overlapping_or_adjacent
    cases h : sortSegments segments with
    | nil => simp
    | cons s rest =>
      intro e he
      have hmem : ∀ t ∈ s :: rest, t.start_sec < t.end_sec := by
        intro t ht
        apply hv
        have ht' : t ∈ sortSegments segments := by rw [h]; exact ht
        exact (List.perm_insertionSort segLE segments).subset ht'
      exact mergeSweep_valid gap_sec rest s (hmem s (List.mem_cons_self _ _))
        (fun t ht => hmem t (List.mem_cons_of_mem _ ht)) e he
  exact chain_far_pairwise gap_sec hg _ (merge_chain segments gap_sec) hval

theorem merge_sorted_nonoverlapping_gapped_witness :
    (∀ s ∈ [(⟨0, 10, "a"⟩ : GlobalSegment), ⟨9, 20, "b"⟩, ⟨25, 30, "c"⟩],
        s.start_sec < s.end_sec) ∧ (0 : ℚ) ≤ 2 ∧
      (merge_overlapping_or_adjacent [⟨0, 10, "a"⟩, ⟨9, 20, "b"⟩, ⟨25, 30, "c"⟩] 2).Pairwise
        (fun a b => a.start_sec < b.start_sec ∧ a.end_sec < b.start_sec ∧
          a.end_sec + 2 < b.start_sec) :=
  ⟨by decide, by decide,
    merge_sorted_nonoverlapping_gapped [⟨0, 10, "a"⟩, ⟨9, 20, "b"⟩, ⟨25, 30, "c"⟩] 2
      (by decide) (by decide)⟩

theorem mergeSweep_covers (gap_sec : ℚ) :
    ∀ (l : List GlobalSegment) (cur : GlobalSegment),
      (cur :: l).Pairwise (fun a b => a.start_sec ≤ b.start_sec) →
      ∀ x ∈ cur :: l, ∃ e ∈ mergeSweep gap_sec cur l,
        e.start_sec ≤ x.start_sec ∧ x.end_sec ≤ e.end_sec := by
  intro l
  induction l with
  | nil =>
    intro cur _ x hx
    rcases List.mem_cons.mp hx with rfl | h
    · exact ⟨x, List.mem_cons_self _ _, le_refl _, le_refl _⟩
    · simp at h
  | cons s rest ih =>
    intro cur hpw x hx
    unfold mergeSweep
    by_cases h : s.start_sec ≤ cur.end_sec + gap_sec
    · rw [if_pos h]
      have hpw' : ((⟨cur.start_sec, max cur.end_sec s.end_sec, cur.reason⟩ :
          GlobalSegment) :: rest).Pairwise (fun a b => a.start_sec ≤ b.start_sec) := by
        rw [List.pairwise_cons]
        refine ⟨fun y hy => ?_, (List.pairwise_cons.mp (List.pairwise_cons.mp hpw).2).2⟩
        exact (List.pairwise_cons.mp hpw).1 y (List.mem_cons_of_mem _ hy)
      obtain ⟨e0, tail0, heq0, hs0, he0⟩ :=
        mergeSweep_head gap_sec rest ⟨cur.start_sec, max cur.end_sec s.end_sec, cur.reason⟩
      rcases List.mem_cons.mp hx with rfl | hx'
      · refine ⟨e0, by rw [heq0]; exact List.mem_cons_self _ _, le_of_eq hs0, ?_⟩
        exact (le_max_left _ _).trans he0
      · rcases List.mem_cons.mp hx' with rfl | hx''
        · refine ⟨e0, by rw [heq0]; exact List.mem_cons_self _ _, ?_,
            (le_max_right _ _).trans he0⟩
          have hcs : cur.start_sec ≤ x.start_sec :=
            (List.pairwise_cons.mp hpw).1 x (List.mem_cons_self _ _)
          exact le_trans (le_of_eq hs0) hcs
        · exact ih ⟨cur.start_sec, max cur.end_sec s.end_sec, cur.reason⟩ hpw' x
            (List.mem_cons_of_mem _ hx'')
    · rw [if_neg h]
      rcases List.mem_cons.mp hx with rfl | hx'
      · exact ⟨x, List.mem_cons_self _ _, le_refl _, le_refl _⟩
      · obtain ⟨e, he, h1, h2⟩ := ih s (List.pairwise_cons.mp hpw).2 x hx'
        exact ⟨e, List.mem_cons_of_mem _ he, h1, h2⟩

/-- C10: the merger never loses coverage: every input segment's interval
[start, end] is contained in the interval of some output segment, and every
output segment's start equals the start of some input segment. -/
theorem merge_preserves_coverage (segments : List GlobalSegment) (gap_sec : ℚ)
    (hg : 0 ≤ gap_sec) :
    (∀ s ∈ segments, ∃ t ∈ merge_overlapping_or_adjacent segments gap_sec,
        t.start_sec ≤ s.start_sec ∧ s.end_sec ≤ t.end_sec) ∧
    (∀ t ∈ merge_overlapping_or_adjacent segments gap_sec,
        ∃ s ∈ segments, t.start_sec = s.start_sec) := by
  constructor
  · intro s hs
    have hmem : s ∈ sortSegments segments :=
      ((List.perm_insertionSort segLE segments).mem_iff).mpr hs
    unfold merge_overlapping_or_adjacent
    cases h : sortSegments segments with
    | nil => rw [h] at hmem; simp at hmem
    | cons c rest =>
      have hsorted : List.Sorted segLE (c :: rest) := by
        rw [← h]; exact List.sorted_insertionSort segLE segments
      have hpw : (c :: rest).Pairwise (fun a b => a.start_sec ≤ b.start_sec) := by
        refine hsorted.imp ?_
        intro a b hab
        rcases hab with h1 | ⟨h1, _⟩
        · exact h1.le
        · exact le_of_eq h1
      rw [h] at hmem
      exact mergeSweep_covers gap_sec rest c hpw s hmem
  · intro t ht
    unfold merge_overlapping_or_adjacent at ht
    rcases hss : sortSegments segments with _ | ⟨c, rest⟩
    · rw [hss] at ht; simp at ht
    · rw [hss] at ht
      obtain ⟨x, hx, hxs, _⟩ := mergeSweep_start_from gap_sec rest c t ht
      rw [← hss] at hx
      exact ⟨x, (List.perm_insertionSort segLE segments).mem_iff.mp hx, hxs.symm⟩

theorem merge_preserves_coverage_witness :
    (0 : ℚ) ≤ 2 ∧
      ((∀ s ∈ [(⟨0, 10, "a"⟩ : GlobalSegment), ⟨9, 20, "b"⟩, ⟨25, 30, "c"⟩],
          ∃ t ∈ merge_overlapping_or_adjacent [⟨0, 10, "a"⟩, ⟨9, 20, "b"⟩, ⟨25, 30, "c"⟩] 2,
            t.start_sec ≤ s.start_sec ∧ s.end_sec ≤ t.end_sec) ∧
        (∀ t ∈ merge_overlapping_or_adjacent [⟨0, 10, "a"⟩, ⟨9, 20, "b"⟩, ⟨25, 30, "c"⟩] 2,
          ∃ s ∈ [(⟨0, 10, "a"⟩ : GlobalSegment), ⟨9, 20, "b"⟩, ⟨25, 30, "c"⟩],
            t.start_sec = s.start_sec)) :=
  ⟨by decide,
    merge_preserves_coverage [⟨0, 10, "a"⟩, ⟨9, 20, "b"⟩, ⟨25, 30, "c"⟩] 2 (by decide)⟩

theorem mergeSweep_far_id (gap_sec : ℚ) :
    ∀ (l : List GlobalSegment) (cur : GlobalSegment),
      List.Chain' (farApart gap_sec) (cur :: l) → mergeSweep gap_sec cur l = cur :: l := by
  intro l
  induction l with
  | nil => intro cur _; rfl
  | cons s rest ih =>
    intro cur hchain
    have h1 : farApart gap_sec cur s := (List.chain'_cons.mp hchain).1
    unfold farApart at h1
    unfold mergeSweep
    rw [if_neg (not_le.mpr h1)]
    exact congrArg _ (ih s (List.chain'_cons.mp hchain).2)

theorem merge_eq_of_sorted_far (l : List GlobalSegment) (gap_sec : ℚ)
    (hs : List.Sorted segLE l) (hc : List.Chain' (farApart gap_sec) l) :
    merge_overlapping_or_adjacent l gap_sec = l := by
  unfold merge_overlapping_or_adjacent sortSegments
  rw [List.Sorted.insertionSort_eq hs]
  cases l with
  | nil => rfl
  | cons c rest => exact mergeSweep_far_id gap_sec rest c hc

/-- C8: the merger is idempotent: for every input list and every nonnegative
gap tolerance, merging the merger's own output returns it unchanged, element
for element. -/
theorem merge_idempotent (segments : List GlobalSegment) (gap_sec : ℚ)
    (hg : 0 ≤ gap_sec) :
    merge_overlapping_or_adjacent (merge_overlapping_or_adjacent segments gap_sec) gap_sec =
      merge_overlapping_or_adjacent segments gap_sec :=
  merge_eq_of_sorted_far _ gap_sec (merge_sorted segments gap_sec)
    (merge_chain segments gap_sec)

theorem merge_idempotent_witness :
    (0 : ℚ) ≤ 2 ∧
      merge_overlapping_or_adjacent
          (merge_overlapping_or_adjacent [(⟨0, 10, "a"⟩ : GlobalSegment), ⟨9, 20, "b"⟩, ⟨25, 30, "c"⟩] 2) 2 =
        merge_overlapping_or_adjacent [(⟨0, 10, "a"⟩ : GlobalSegment), ⟨9, 20, "b"⟩, ⟨25, 30, "c"⟩] 2 :=
  ⟨by decide, merge_idempotent [⟨0, 10, "a"⟩, ⟨9, 20, "b"⟩, ⟨25, 30, "c"⟩] 2 (by decide)⟩

theorem buildChunksLoop_head (D L st : ℚ) :
    ∀ (fuel : ℕ) (start : ℚ) (w : ℚ × ℚ),
      (buildChunksLoop D L st fuel start).head? = some w → w.1 = start := by
  intro fuel
  cases fuel with
  | zero => intro start w h; simp [buildChunksLoop] at h
  | succ f =>
    intro start w h
    unfold buildChunksLoop at h
    by_cases h1 : start < D
    · rw [if_pos h1] at h
      by_cases h2 : D ≤ min (start + L) D
      · rw [if_pos h2] at h
        rw [List.head?_cons, Option.some_inj] at h
        rw [← h]
      · rw [if_neg h2] at h
        rw [List.head?_cons, Option.some_inj] at h
        rw [← h]
    · rw [if_neg h1] at h
      simp at h

theorem buildChunksLoop_covers (D L st : ℚ) (hst : 0 < st) (hstL : st ≤ L) :
    ∀ (fuel : ℕ) (start : ℚ), start < D → D - start ≤ (fuel : ℚ) * st →
      ∀ t, start ≤ t → t < D →
        ∃ w ∈ buildChunksLoop D L st fuel start, w.1 ≤ t ∧ t < w.2 := by
  intro fuel
  induction fuel with
  | zero => intro start h1 h2 t _ _; exfalso; simp at h2; linarith
  | succ f ih =>
    intro start h1 h2 t ht1 ht2
    unfold buildChunksLoop
    rw [if_pos h1]
    by_cases h3 : D ≤ min (start + L) D
    · rw [if_pos h3]
      have hmin : min (start + L) D = D := le_antisymm (min_le_right _ _) h3
      exact ⟨(start, min (start + L) D), List.mem_cons_self _ _, ht1,
        by rw [hmin]; exact ht2⟩
    · rw [if_neg h3]
      have hlt : start + L < D := by
        by_contra hc
        push_neg at hc
        exact h3 (le_of_eq (min_eq_right hc).symm)
      have hmin : min (start + L) D = start + L := min_eq_left hlt.le
      by_cases h4 : t < start + L
      · exact ⟨(start, min (start + L) D), List.mem_cons_self _ _, ht1,
          by rw [hmin]; exact h4⟩
      · push_neg at h4
        have h5 : start + st ≤ t := by linarith
        have h6 : start + st < D := lt_of_le_of_lt h5 ht2
        have h7 : D - (start + st) ≤ (f : ℚ) * st := by
          push_cast at h2 ⊢
          linarith
        obtain ⟨w, hw, hw1, hw2⟩ := ih (start + st) h6 h7 t h5 ht2
        exact ⟨w, List.mem_cons_of_mem _ hw, hw1, hw2⟩

theorem buildChunksLoop_last (D L st : ℚ) (hst : 0 < st) (hstL : st ≤ L) :
    ∀ (fuel : ℕ) (start : ℚ), start < D → D - start ≤ (fuel : ℚ) * st →
      ∃ init w, buildChunksLoop D L st fuel start = init ++ [w] ∧ w.2 = D ∧
        ∀ v ∈ init, v.2 < D := by
  intro fuel
  induction fuel with
  | zero => intro start h1 h2; exfalso; simp at h2; linarith
  | succ f ih =>
    intro start h1 h2
    unfold buildChunksLoop
    rw [if_pos h1]
    by_cases h3 : D ≤ min (start + L) D
    · rw [if_pos h3]
      have hmin : min (start + L) D = D := le_antisymm (min_le_right _ _) h3
      exact ⟨[], (start, min (start + L) D), rfl, hmin, by simp⟩
    · rw [if_neg h3]
      have hlt : start + L < D := by
        by_contra hc
        push_neg at hc
        exact h3 (le_of_eq (min_eq_right hc).symm)
      have h6 : start + st < D := by linarith
      have h7 : D - (start + st) ≤ (f : ℚ) * st := by
        push_cast at h2 ⊢
        linarith
      obtain ⟨init, w, heq, hw2, hinit⟩ := ih (start + st) h6 h7
      refine ⟨(start, min (start + L) D) :: init, w, by rw [heq, List.cons_append], hw2, ?_⟩
      intro v hv
      rcases List.mem_cons.mp hv with rfl | hv'
      · exact not_le.mp h3
      · exact hinit v hv'

theorem buildChunksLoop_chain (D L st : ℚ) :
    ∀ (fuel : ℕ) (start : ℚ),
      List.Chain' (fun a b : ℚ × ℚ => a.2 - b.1 = L - st)
        (buildChunksLoop D L st fuel start) := by
  intro fuel
  induction fuel with
  | zero => intro start; simp [buildChunksLoop]
  | succ f ih =>
    intro start
    unfold buildChunksLoop
    by_cases h1 : start < D
    · rw [if_pos h1]
      by_cases h2 : D ≤ min (start + L) D
      · rw [if_pos h2]; simp
      · rw [if_neg h2]
        rw [List.chain'_cons']
        refine ⟨?_, ih (start + st)⟩
        intro w hw
        have hw1 : w.1 = start + st := buildChunksLoop_head D L st f (start + st) w hw
        have hlt : start + L < D := by
          by_contra hc
          push_neg at hc
          exact h2 (le_of_eq (min_eq_right hc).symm)
        have hmin : min (start + L) D = start + L := min_eq_left hlt.le
        show min (start + L) D - w.1 = L - st
        rw [hmin, hw1]
        ring
    · rw [if_neg h1]; simp

/-- C2: for every duration > 0, window length > 0 and overlap with
0 ≤ overlap < window length, the tiler succeeds and returns windows whose
[start, end) ranges cover [0, duration) with no gaps, every pair of
consecutive windows overlaps by exactly `overlap` seconds (so in particular
all non-final ones do), and exactly one window — the last — has end equal
to the duration. -/
theorem build_chunks_with_overlap_spec (duration_sec chunk_duration_sec overlap_sec : ℚ)
    (hd : 0 < duration_sec) (hL : 0 < chunk_duration_sec)
    (hov0 : 0 ≤ overlap_sec) (hovL : overlap_sec < chunk_duration_sec) :
    ∃ chunks, build_chunks_with_overlap duration_sec chunk_duration_sec overlap_sec =
        Except.ok chunks ∧
      (∀ t, 0 ≤ t → t < duration_sec → ∃ w ∈ chunks, w.1 ≤ t ∧ t < w.2) ∧
      List.Chain' (fun a b : ℚ × ℚ => a.2 - b.1 = overlap_sec) chunks ∧
      ∃ init w, chunks = init ++ [w] ∧ w.2 = duration_sec ∧
        ∀ v ∈ init, v.2 < duration_sec := by
  have hst : 0 < chunk_duration_sec - overlap_sec := by linarith
  have hstL : chunk_duration_sec - overlap_sec ≤ chunk_duration_sec := by linarith
  have hfuel : duration_sec - 0 ≤
      ((chunksFuel duration_sec (chunk_duration_sec - overlap_sec) : ℕ) : ℚ) *
        (chunk_duration_sec - overlap_sec) := by
    have hdiv : duration_sec / (chunk_duration_sec - overlap_sec) ≤
        ((⌈duration_sec / (chunk_duration_sec - overlap_sec)⌉ : ℤ) : ℚ) := Int.le_ceil _
    have hpos : 0 < duration_sec / (chunk_duration_sec - overlap_sec) := div_pos hd hst
    have hc0 : 0 ≤ ⌈duration_sec / (chunk_duration_sec - overlap_sec)⌉ :=
      Int.ceil_nonneg hpos.le
    have h1 : duration_sec ≤
        ((⌈duration_sec / (chunk_duration_sec - overlap_sec)⌉ : ℤ) : ℚ) *
          (chunk_duration_sec - overlap_sec) := by
      have h2 := mul_le_mul_of_nonneg_right hdiv hst.le
      rwa [div_mul_cancel₀ _ hst.ne'] at h2
    have hcast : ((⌈duration_sec / (chunk_duration_sec - overlap_sec)⌉.toNat : ℕ) : ℚ) =
        ((⌈duration_sec / (chunk_duration_sec - overlap_sec)⌉ : ℤ) : ℚ) := by
      exact_mod_cast Int.toNat_of_nonneg hc0
    unfold chunksFuel
    push_cast
    rw [hcast]
    nlinarith [hst, h1]
  unfold build_chunks_with_overlap
  rw [if_neg (not_le.mpr hovL)]
  refine ⟨_, rfl, ?_, ?_, ?_⟩
  · intro t ht0 htD
    exact buildChunksLoop_covers duration_sec chunk_duration_sec _ hst hstL _ 0 hd
      hfuel t ht0 htD
  · have hch := buildChunksLoop_chain duration_sec chunk_duration_sec
      (chunk_duration_sec - overlap_sec)
      (chunksFuel duration_sec (chunk_duration_sec - overlap_sec)) 0
    have heq : chunk_duration_sec - (chunk_duration_sec - overlap_sec) = overlap_sec := by
      ring
    simp only [heq] at hch
    exact hch
  · exact buildChunksLoop_last duration_sec chunk_duration_sec _ hst hstL _ 0 hd hfuel

theorem build_chunks_with_overlap_spec_witness :
    (0 : ℚ) < 100 ∧ (0 : ℚ) < 40 ∧ (0 : ℚ) ≤ 10 ∧ (10 : ℚ) < 40 ∧
      ∃ chunks, build_chunks_with_overlap 100 40 10 = Except.ok chunks ∧
        (∀ t, 0 ≤ t → t < 100 → ∃ w ∈ chunks, w.1 ≤ t ∧ t < w.2) ∧
        List.Chain' (fun a b : ℚ × ℚ => a.2 - b.1 = 10) chunks ∧
        ∃ init w, chunks = init ++ [w] ∧ w.2 = 100 ∧ ∀ v ∈ init, v.2 < 100 :=
  ⟨by decide, by decide, by decide, by decide,
    build_chunks_with_overlap_spec 100 40 10 (by decide) (by decide) (by decide) (by decide)⟩
